import Mathlib

/-!
Shallow embedding of `benchmark.h` (C++ namespace `bm`, inline namespace
`v1_0`): a generic single-call timer (`time`, with the factories `real_time`
and `proc_time`), a randomized round scheduler (three `bench` overloads fed by
`gen_rd_seq`), and a library of statistical reducers over the per-candidate
sample vectors (`max`, `min`, `sum`, `avg`, `median`, `nsd`, `excl_avg`,
`full`).

Modelling conventions:
* samples are mathematical integers `ℤ`, with explicit 64-bit semantics where
  the C++ integer width is observable: `avg` divides the (`int64_t`) sum by
  the unsigned `size_t` vector size, and the `nanos` specialisation of `nsd`
  subtracts and squares in `int64_t`;
* operations whose C++ counterpart is undefined behaviour (signed-integer
  overflow, division by zero, out-of-range element access) return `none`;
  well-defined unsigned wrap-around and integer-to-unsigned conversion are
  modelled by reduction mod `2 ^ 64`;
* functions that take their vector by mutable reference (`median`,
  `excl_avg`) return the final contents of the vector as a second component;
* the effectful candidate/hook calls inside `time` are modelled by explicit
  state passing, and a candidate handed to `bench` is modelled as the
  function `ℕ → ℤ` giving the sample its timer returns on its k-th
  invocation;
* `std::shuffle`'s random source is abstracted as a stream `rng : ℕ → ℕ`, the
  draw for loop index `i` being `rng i % (i + 1)`.
-/

namespace BM

/-- Predicate: `z` is representable as a C++ `int64_t`: `-2^63 ≤ z < 2^63`. -/
def fitsI64 (z : ℤ) : Prop := -(2 ^ 63) ≤ z ∧ z < 2 ^ 63

instance (z : ℤ) : Decidable (fitsI64 z) := by unfold fitsI64; infer_instance

/-- Conversion of an integer value to `uint64_t`: reduction mod `2 ^ 64`
(well-defined in C++). -/
def toU64 (z : ℤ) : ℤ := z % 2 ^ 64

/-- Conversion of an integer value to `int64_t`: two's-complement wrap
(the behaviour of every supported implementation, mandated since C++20). -/
def toI64 (z : ℤ) : ℤ := (z + 2 ^ 63) % 2 ^ 64 - 2 ^ 63

/-- Addition in `int64_t`; signed overflow is UB, hence `none`. -/
def addI64 (a b : ℤ) : Option ℤ := if fitsI64 (a + b) then some (a + b) else none

/-- Subtraction in `int64_t`; signed overflow is UB, hence `none`. -/
def subI64 (a b : ℤ) : Option ℤ := if fitsI64 (a - b) then some (a - b) else none

/-- Multiplication in `int64_t`; signed overflow is UB, hence `none`. -/
def mulI64 (a b : ℤ) : Option ℤ := if fitsI64 (a * b) then some (a * b) else none

/-- Embedding of `bm::sum` at an `int64_t`-like sample type:
`std::accumulate(vec.begin(), vec.end(), T{})`, a left fold with `+` starting
from zero; `none` if any intermediate sum overflows (UB). -/
def sum (v : List ℤ) : Option ℤ :=
  v.foldl (fun acc x => acc.bind fun a => addI64 a x) (some 0)

/-- Embedding of `bm::avg`: `sum(vec) / vec.size()`.  The left operand is the (signed)
sample type and the right operand is `size_t`, so the usual arithmetic
conversions turn the division into `uint64_t` division: the sum is converted
to `uint64_t`, divided, and the quotient is converted back to the sample
type.  Division by zero (empty vector) is UB. -/
def avg (v : List ℤ) : Option ℤ :=
  (sum v).bind fun s =>
    if v.length = 0 then none else some (toI64 (toU64 s / (v.length : ℤ)))

/-- Embedding of `bm::max`: `*std::max_element(vec.begin(), vec.end())`; dereferencing the
end iterator of an empty range is UB, hence `none` on `[]`. -/
def max (v : List ℤ) : Option ℤ := v.max?

/-- Embedding of `bm::min`: `*std::min_element(vec.begin(), vec.end())`; `none` on `[]`. -/
def min (v : List ℤ) : Option ℤ := v.min?

/-- The vector contents after `std::nth_element(v.begin(), v.begin() + mid,
v.end())`, modelled as the fully sorted vector: the canonical reordering
satisfying the `nth_element` postcondition (the element at `mid` is exactly
the one sorted order puts there, no element before it is greater, none after
it is smaller). -/
def nthElem (v : List ℤ) : List ℤ := v.insertionSort (· ≤ ·)

/-- Embedding of `bm::median`: `nth_element` at `mid = n / 2`, then return `vec[mid]`.
The reordered vector is returned as the second component (the argument is a
mutable reference).  `vec[mid]` on an empty vector is UB, hence `none`. -/
def median (v : List ℤ) : Option ℤ × List ℤ :=
  ((nthElem v)[v.length / 2]?, nthElem v)

/-- Embedding of `bm::excl_avg<N>`: if `N * 2 >= vec.size()`, fall back to `median(vec)`;
otherwise build the copy `excl_vec(vec.begin() + N, vec.end() - N)` — the
samples at positions `N .. size-N-1` in their given order — and return its
`avg`, leaving `vec` itself untouched. -/
def excl_avg (N : ℕ) (v : List ℤ) : Option ℤ × List ℤ :=
  if v.length ≤ N * 2 then median v
  else (avg ((v.drop N).take (v.length - 2 * N)), v)

/-- Embedding of `bm::full`: returns the sample vector unchanged. -/
def full (v : List ℤ) : List ℤ := v

/-- One integer accumulation step of the `nanos` specialisation of `bm::nsd`:
`const auto diff = (int64_t)val.count() - _avg; ... diff * diff`.  Both the
subtraction and the squaring are performed in `int64_t` — the representation
type of `nanos` itself — and only the already-squared value is converted to
floating point for the running sum. -/
def nsd_sq (m v : ℤ) : Option ℤ := (subI64 v m).bind fun d => mulI64 d d

/-- The squared deviations accumulated by the `nanos` specialisation of
`bm::nsd`, with `_avg = (int64_t)avg(vec).count()` (the cast is the identity:
`count()` already yields the `int64_t` representation).  `none` as soon as
any of the `int64_t` operations overflows.  The subsequent floating-point
summation, square root and division by the mean lie outside the integer
claim modelled here. -/
def nsd_sqs (v : List ℤ) : Option (List ℤ) :=
  (avg v).bind fun m => v.mapM (nsd_sq m)

/-- The events observable during one call of the timer produced by `bm::time`:
the pre-hook, a clock reading, the candidate, and the post-hook. -/
inductive Ev where
  | pre : Ev
  | clk : Ev
  | fn : Ev
  | post : Ev
  deriving DecidableEq

/-- Embedding of `bm::time`: runs `pre_func(); start = now(); func(); end = now();
post_func(); return diff(start, end);`.  The effectful arguments are
modelled as explicit state transformers over an abstract state `σ`. -/
def time {σ T D : Type} (now : σ → T × σ) (diff : T → T → D)
    (func pre_func post_func : σ → σ) (s : σ) : D × σ :=
  let s1 := pre_func s
  let p := now s1
  let s2 := func p.2
  let q := now s2
  let s3 := post_func q.2
  (diff p.1 q.1, s3)

/-- Embedding of `bm::real_time` (and identically `bm::proc_time`): the factory
`std::bind(time<tp, nanos>, now, tp_diff, func, pre_func, post_func)` — the
timer it returns is exactly `time` partially applied to a clock and the
three callables. -/
def real_time {σ T D : Type} (now : σ → T × σ) (diff : T → T → D)
    (func pre_func post_func : σ → σ) : σ → D × σ :=
  fun s => time now diff func pre_func post_func s

/-- Instrumented hook/candidate: appends its tag to the event trace. -/
def logStep (e : Ev) (s : List Ev) : List Ev := s ++ [e]

/-- Instrumented clock: returns the current trace length as the timestamp and
logs the reading. -/
def logNow (s : List Ev) : ℕ × List Ev := (s.length, s ++ [Ev.clk])

/-- Swap of two vector elements, `std::swap(l[a], l[b])`. -/
def listSwap (l : List ℕ) (a b : ℕ) : List ℕ :=
  (l.set a (l.getD b 0)).set b (l.getD a 0)

/-- The `std::shuffle` loop
`for (i = n - 1; i > 0; --i) swap(first[i], first[D(g, 0, i)]);`
with the uniform draw from `[0, i]` modelled as `rng i % (i + 1)`. -/
def shuffleAux (rng : ℕ → ℕ) : ℕ → List ℕ → List ℕ
  | 0, l => l
  | i + 1, l => shuffleAux rng i (listSwap l (i + 1) (rng (i + 1) % (i + 2)))

/-- Embedding of `bm::gen_rd_seq`: `std::iota` over `0 .. n-1` followed by `std::shuffle`
with a freshly seeded `mt19937`, abstracted over the random stream `rng`. -/
def gen_rd_seq (n : ℕ) (rng : ℕ → ℕ) : List ℕ :=
  shuffleAux rng (n - 1) (List.range n)

/-- One iteration of the scheduling loop shared by the variadic and the
runtime-list overloads of `bm::bench`:
`auto func_idx = i % Func_Sz; auto run_idx = i / Func_Sz;
run_results[func_idx][run_idx] = funcs[func_idx]();`.
A candidate is the function `ℕ → ℤ` giving the sample its timer returns on
its k-th invocation; the second state component holds the per-candidate
invocation counts, so `funcs[func_idx]()` receives its call number. -/
def benchStep (funcs : List (ℕ → ℤ)) :
    List (List ℤ) × List ℕ → ℕ → List (List ℤ) × List ℕ :=
  fun st i =>
    let fi := i % funcs.length
    let k := st.2.getD fi 0
    (st.1.set fi ((st.1.getD fi []).set (i / funcs.length)
        ((funcs.getD fi fun _ => 0) k)),
     st.2.set fi (k + 1))

/-- The scheduling loop of `bm::bench` run over the permuted index sequence
`seq`, starting from `Func_Sz` zero-filled sample rows
(`std::vector<Func_R>(rounds)` value-initialises) and zero invocation
counts. -/
def benchRun (rounds : ℕ) (funcs : List (ℕ → ℤ)) (seq : List ℕ) :
    List (List ℤ) × List ℕ :=
  seq.foldl (benchStep funcs)
    (List.replicate funcs.length (List.replicate rounds 0),
     List.replicate funcs.length 0)

/-- Embedding of `bm::bench` (runtime-list overload): run the scheduling loop over the
permuted index sequence — `gen_rd_seq(rounds * func_sz)` in the source,
passed here as the parameter `seq` — then
`results[i] = d_meth(run_results[i])` for each candidate in supplied order.
A reducer that mutates its argument only mutates the discarded
`run_results[i]`, so only its value component matters here. -/
def bench_vec (rounds : ℕ) (d_meth : List ℤ → Option ℤ)
    (funcs : List (ℕ → ℤ)) (seq : List ℕ) : List (Option ℤ) :=
  ((benchRun rounds funcs seq).1).map d_meth

/-- Embedding of `bm::bench` (variadic overload): the candidate pack is materialised as
`std::array<std::function<Func_R()>, Func_Sz>` and then the body is textually
the same scheduling loop and reduction pass as the runtime-list overload. -/
def bench_arr (rounds : ℕ) (d_meth : List ℤ → Option ℤ)
    (funcs : List (ℕ → ℤ)) (seq : List ℕ) : List (Option ℤ) :=
  ((seq.foldl (benchStep funcs)
      (List.replicate funcs.length (List.replicate rounds 0),
       List.replicate funcs.length 0)).1).map d_meth

/-- Embedding of `bm::bench` (single-candidate overload): `run_results[i] = func()` for
`i = 0 .. rounds-1` in order — no permutation — then a single reduction. -/
def bench_one (rounds : ℕ) (d_meth : List ℤ → Option ℤ) (func : ℕ → ℤ) :
    Option ℤ :=
  d_meth ((List.range rounds).map func)

/-- C5: every invocation of the timer produced by the timing-function factory
runs `pre_func`, a first clock reading, the candidate `func`, a second clock
reading, and `post_func`, in this fixed order and each exactly once, and
returns `diff start end`; instrumenting all five callables over an event
trace yields exactly the five-event trace
`[pre, clk, fn, clk, post]` — so the hooks run strictly outside the timed
window `[start, end]` (the two clock readings observe only `pre` before them,
respectively `pre`, `clk`, `fn`) — and the returned value is `diff` of the
two readings taken immediately around `func`. -/
theorem time_runs_hooks_outside_timed_window :
    ∀ (D : Type) (diff : ℕ → ℕ → D),
      real_time logNow diff (logStep Ev.fn) (logStep Ev.pre) (logStep Ev.post)
          [] =
        (diff 1 3, [Ev.pre, Ev.clk, Ev.fn, Ev.clk, Ev.post]) :=
  fun _ _ => rfl

/-- C4: `bench` performs no precondition check at all.  With `rounds = 0` and
one candidate the scheduling loop runs zero times but the reduction loop
still applies the reducer to the empty sample vector, where `avg` divides by
a sample count of zero (UB, modelled `none`) — the call is not rejected
before measurement and the division by zero in `avg` IS reachable through
`bench`.  With an empty candidate list (`rounds * func_sz = 0`) the overload
silently returns an empty result vector, again without any rejection. -/
theorem bench_no_precondition_check :
    ∀ (f : ℕ → ℤ) (rng : ℕ → ℕ) (R : ℕ) (d : List ℤ → Option ℤ),
      bench_vec 0 avg [f] (gen_rd_seq (0 * 1) rng) = [none] ∧
      bench_vec R d [] (gen_rd_seq (R * 0) rng) = [] :=
  fun _ _ _ _ => ⟨rfl, rfl⟩

/-- C2 counterexample: `excl_avg<1>` on the five samples `[5, 1, 1, 1, 5]`
(so `2N = 2 < 5 = R`).  Discarding the one lowest sample (a `1`) and the one
highest sample (a `5`) *by value* leaves the multiset `{1, 1, 5}`, whose
`avg` is `7 / 3 = 2`; the code instead averages the positional slice
`vec.begin() + 1 .. vec.end() - 1 = [1, 1, 1]` of the unsorted input and
returns `1 ≠ 2`. -/
theorem excl_avg_not_by_value_cex :
    (excl_avg 1 [5, 1, 1, 1, 5]).1 = some 1 ∧
    nthElem [5, 1, 1, 1, 5] = [1, 1, 1, 5, 5] ∧
    avg [1, 1, 5] = some 2 ∧ some (1 : ℤ) ≠ some (2 : ℤ) :=
  ⟨rfl, rfl, rfl, by decide⟩

/-- C3 counterexample: on the ten samples `1 .. 10` the code returns the
element at sorted index `R / 2 = 5`, the value `6` (exactly what the
repository's own test `test_binding.cpp` asserts), not the lower-median `5`
found at sorted index `R / 2 - 1 = 4` that the claim states. -/
theorem median_not_lower_median_cex :
    (median [1, 2, 3, 4, 5, 6, 7, 8, 9, 10]).1 = some 6 ∧
    (nthElem [1, 2, 3, 4, 5, 6, 7, 8, 9, 10])[10 / 2 - 1]? = some 5 ∧
    some (6 : ℤ) ≠ some (5 : ℤ) :=
  ⟨rfl, rfl, by decide⟩

/-- C6 counterexample: for the two `nanos` samples `0` and `2^33` the mean is
`2^32`, each deviation is `±2^32`, and its square `2^64` does not fit in
`int64_t`: since the `nanos` specialisation of `nsd` subtracts *and squares*
in `int64_t` itself — the representation type of `nanos`, not a larger
signed type — the squaring step overflows (UB, modelled `none`).  A
computation that widened the differences before squaring would represent
`2^64` without difficulty. -/
theorem nsd_squares_overflow_cex :
    nsd_sqs [0, 8589934592] = none ∧
    avg [0, 8589934592] = some 4294967296 ∧
    ¬ fitsI64 ((0 - 4294967296 : ℤ) * (0 - 4294967296 : ℤ)) :=
  ⟨rfl, rfl, by decide⟩

/-- Helper: values representable in `int64_t` are fixed points of the
two's-complement wrap. -/
theorem toI64_of_fits {z : ℤ} (h : fitsI64 z) : toI64 z = z := by
  obtain ⟨h1, h2⟩ := h
  have e63 : (2 : ℤ) ^ 63 = 9223372036854775808 := by norm_num
  have e64 : (2 : ℤ) ^ 64 = 18446744073709551616 := by norm_num
  unfold toI64
  rw [Int.emod_eq_of_lt (by omega) (by omega)]
  omega

/-- Helper: evaluation of the accumulation loop of `sum` when every sample is
nonnegative and the total stays below `2^63` (then no intermediate `int64_t`
addition overflows). -/
theorem sum_foldl_eval (v : List ℤ) : ∀ acc : ℤ, 0 ≤ acc →
    (∀ x ∈ v, 0 ≤ x) → acc + v.sum < 2 ^ 63 →
    List.foldl (fun a x => a.bind fun y => addI64 y x) (some acc) v =
      some (acc + v.sum) := by
  induction v with
  | nil => intro acc _ _ _; simp
  | cons b t ih =>
    intro acc hacc hpos hlt
    rw [List.sum_cons] at hlt
    have hb : 0 ≤ b := hpos b (List.mem_cons_self b t)
    have ht : 0 ≤ t.sum :=
      List.sum_nonneg fun x hx => hpos x (List.mem_cons_of_mem b hx)
    have h63 : (0 : ℤ) < 2 ^ 63 := by positivity
    have hfits : fitsI64 (acc + b) := ⟨by linarith, by linarith⟩
    rw [List.foldl_cons]
    have hstep : ((some acc).bind fun y => addI64 y b) = some (acc + b) := by
      show addI64 acc b = _
      unfold addI64
      rw [if_pos hfits]
    rw [hstep,
      ih (acc + b) (by linarith)
        (fun x hx => hpos x (List.mem_cons_of_mem b hx)) (by linarith),
      List.sum_cons, add_assoc]

/-- Helper: `sum` agrees with the mathematical sum on nonnegative in-range
samples. -/
theorem sum_of_nonneg (v : List ℤ) (hpos : ∀ x ∈ v, 0 ≤ x)
    (hlt : v.sum < 2 ^ 63) : sum v = some v.sum := by
  unfold sum
  simpa using sum_foldl_eval v 0 le_rfl hpos (by simpa using hlt)

/-- Helper: on a non-empty vector of nonnegative in-range samples the
`size_t` division inside `avg` coincides with mathematical integer
division. -/
theorem avg_of_nonneg (v : List ℤ) (hne : v ≠ [])
    (hpos : ∀ x ∈ v, 0 ≤ x) (hlt : v.sum < 2 ^ 63) :
    avg v = some (v.sum / (v.length : ℤ)) := by
  unfold avg
  rw [sum_of_nonneg v hpos hlt]
  have hlen : v.length ≠ 0 := by simpa [List.length_eq_zero] using hne
  show (if v.length = 0 then none
    else some (toI64 (toU64 v.sum / (v.length : ℤ)))) = _
  rw [if_neg hlen]
  have hs0 : 0 ≤ v.sum := List.sum_nonneg hpos
  have h64 : (2 : ℤ) ^ 63 < 2 ^ 64 := by norm_num
  have hU : toU64 v.sum = v.sum := by
    unfold toU64
    exact Int.emod_eq_of_lt hs0 (by linarith)
  rw [hU]
  congr 1
  apply toI64_of_fits
  have h630 : (0 : ℤ) < 2 ^ 63 := by positivity
  have hq0 : 0 ≤ v.sum / (v.length : ℤ) :=
    Int.ediv_nonneg hs0 (by positivity)
  have hqle : v.sum / (v.length : ℤ) ≤ v.sum := Int.ediv_le_self _ hs0
  exact ⟨by linarith, by linarith⟩

/-- C8 counterexample: the division in `avg` is `int64_t / size_t`, which C++
performs in `uint64_t`.  For the two samples `[-3, 1]` the sum is `-2`,
which converts to `2^64 - 2`; the unsigned quotient is `2^63 - 1`, so `avg`
returns `9223372036854775807`, vastly exceeding `max = 1` — the claimed
`min ≤ avg ≤ max` identity fails for signed integral samples with a negative
sum. -/
theorem avg_exceeds_max_cex :
    avg [-3, 1] = some 9223372036854775807 ∧
    max [-3, 1] = some 1 ∧ min [-3, 1] = some (-3) ∧
    ¬ (9223372036854775807 : ℤ) ≤ 1 :=
  ⟨rfl, rfl, rfl, by decide⟩

/-- C8 (amended): for every non-empty sequence of *nonnegative* integral
samples whose sum stays below `2^63` (so the unsigned `size_t` division
coincides with mathematical truncating division), the reducers satisfy
`min(seq) ≤ avg(seq) ≤ max(seq)` with `avg(seq) = sum(seq) / length(seq)`
the truncating integer quotient. -/
theorem min_le_avg_le_max (v : List ℤ) (hne : v ≠ [])
    (hpos : ∀ x ∈ v, 0 ≤ x) (hlt : v.sum < 2 ^ 63) :
    ∃ mn a mx, min v = some mn ∧ avg v = some a ∧ max v = some mx ∧
      a = v.sum / (v.length : ℤ) ∧ mn ≤ a ∧ a ≤ mx := by
  obtain ⟨b, t, rfl⟩ := List.exists_cons_of_ne_nil hne
  have hmin : BM.min (b :: t) = some (t.foldl Min.min b) := rfl
  have hmax : BM.max (b :: t) = some (t.foldl Max.max b) := rfl
  have hmnle : ∀ x ∈ b :: t, t.foldl Min.min b ≤ x := fun x hx =>
    (List.le_min?_iff (fun _ _ _ => le_min_iff) (hmin)).1 le_rfl x hx
  have hlemx : ∀ x ∈ b :: t, x ≤ t.foldl Max.max b := fun x hx =>
    (List.max?_le_iff (fun _ _ _ => max_le_iff) (hmax)).1 le_rfl x hx
  have hlen0 : (0 : ℤ) < ((b :: t).length : ℤ) := by
    rw [List.length_cons]
    exact_mod_cast Nat.succ_pos t.length
  refine ⟨t.foldl Min.min b, (b :: t).sum / ((b :: t).length : ℤ),
    t.foldl Max.max b, hmin, avg_of_nonneg _ hne hpos hlt, hmax, rfl, ?_, ?_⟩
  · rw [Int.le_ediv_iff_mul_le hlen0]
    have := List.card_nsmul_le_sum (b :: t) (t.foldl Min.min b) hmnle
    simpa [nsmul_eq_mul, mul_comm] using this
  · have hsum_le : (b :: t).sum ≤ ((b :: t).length : ℤ) * t.foldl Max.max b := by
      have := List.sum_le_card_nsmul (b :: t) (t.foldl Max.max b) hlemx
      simpa [nsmul_eq_mul] using this
    calc (b :: t).sum / ((b :: t).length : ℤ)
        ≤ (((b :: t).length : ℤ) * t.foldl Max.max b) / ((b :: t).length : ℤ) :=
          Int.ediv_le_ediv hlen0 hsum_le
      _ = t.foldl Max.max b := by
          rw [mul_comm]
          exact Int.mul_ediv_cancel _ (by linarith)

/-- Witness for `min_le_avg_le_max` on the samples `[1, 2, 3]`. -/
theorem min_le_avg_le_max_witness :
    ∃ mn a mx, min [1, 2, 3] = some mn ∧ avg [1, 2, 3] = some a ∧
      max [1, 2, 3] = some mx ∧
      a = ([1, 2, 3] : List ℤ).sum / (([1, 2, 3] : List ℤ).length : ℤ) ∧
      mn ≤ a ∧ a ≤ mx :=
  min_le_avg_le_max [1, 2, 3] (by decide) (by decide) (by decide)

/-- C10: when `2N < R`, `excl_avg<N>` leaves its sample vector exactly as
given — the average is taken over the separately constructed copy
`excl_vec`, and the input is never reordered despite the mutable reference —
while on the fallback path `2N ≥ R` the vector is handed to `median`, which
reorders it (into a permutation of itself, via `nth_element`). -/
theorem excl_avg_frame (N : ℕ) (v : List ℤ) :
    (2 * N < v.length → (excl_avg N v).2 = v) ∧
    (v.length ≤ 2 * N → (excl_avg N v).2.Perm v) := by
  constructor
  · intro h
    unfold excl_avg
    rw [if_neg (by omega)]
  · intro h
    unfold excl_avg
    rw [if_pos (by omega)]
    exact List.perm_insertionSort _ v

/-- C3 (amended): for every non-empty sample sequence, `median` returns the
element that the sorted order puts at 0-based index `R / 2` — the middle
element for odd `R` and the *upper* median for even `R` — and the returned
value is an element of the input sequence (`nthElem v` being the reordered
vector: a sorted permutation of the input). -/
theorem median_selects_sorted_mid (v : List ℤ) (h : v ≠ []) :
    (median v).1 = some ((nthElem v).getD (v.length / 2) 0) ∧
    (nthElem v).getD (v.length / 2) 0 ∈ v ∧
    (nthElem v).Perm v ∧ (nthElem v).Sorted (· ≤ ·) := by
  have hlen : v.length / 2 < (nthElem v).length := by
    rw [nthElem, List.length_insertionSort]
    exact Nat.div_lt_self (List.length_pos.mpr h) one_lt_two
  refine ⟨?_, ?_, List.perm_insertionSort _ v, List.sorted_insertionSort _ v⟩
  · show (nthElem v)[v.length / 2]? = _
    rw [List.getElem?_eq_getElem hlen, List.getD_eq_getElem _ _ hlen]
  · rw [List.getD_eq_getElem _ _ hlen]
    exact (List.mem_insertionSort _).mp (List.getElem_mem hlen)

/-- Witness for `median_selects_sorted_mid`: on the three samples
`[3, 1, 2]` the returned value is the sorted middle element. -/
theorem median_selects_sorted_mid_witness :
    (median [3, 1, 2]).1 = some ((nthElem [3, 1, 2]).getD 1 0) ∧
    (nthElem [3, 1, 2]).getD 1 0 ∈ ([3, 1, 2] : List ℤ) ∧
    (nthElem [3, 1, 2]).Perm [3, 1, 2] ∧
    (nthElem [3, 1, 2]).Sorted (· ≤ ·) :=
  median_selects_sorted_mid [3, 1, 2] (by decide)

/-- C2 (amended): for `2N < R`, `excl_avg<N>` returns the average of the
samples that remain after discarding the first `N` and the last `N` samples
*by position* in the given (unsorted) order — the kept samples are exactly
`v[N + i]` for `i < R - 2N` — performing no value-based selection; for
`2N ≥ R` it returns `median`, i.e. the element the sorted order puts at
index `R / 2`. -/
theorem excl_avg_positional_trim (N : ℕ) (v : List ℤ) :
    (2 * N < v.length →
      (excl_avg N v).1 =
        avg ((List.range (v.length - 2 * N)).map fun i => v.getD (N + i) 0)) ∧
    (v.length ≤ 2 * N → (excl_avg N v).1 = (nthElem v)[v.length / 2]?) := by
  constructor
  · intro h
    unfold excl_avg
    rw [if_neg (by omega)]
    show avg _ = avg _
    congr 1
    apply List.ext_getElem
    · simp
      omega
    · intro i h1 h2
      have hi : i < v.length - 2 * N := by
        simpa using h2
      have hNi : N + i < v.length := by omega
      simp [List.getElem?_eq_getElem hNi]
  · intro h
    unfold excl_avg
    rw [if_pos (by omega)]
    rfl

/-- Witness for `excl_avg_positional_trim`: `N = 2` over the ten samples
`1 .. 10` (trim branch) and `N = 2` over three samples (median fallback). -/
theorem excl_avg_positional_trim_witness :
    (excl_avg 2 [1, 2, 3, 4, 5, 6, 7, 8, 9, 10]).1 =
      avg ((List.range 6).map
        fun i => ([1, 2, 3, 4, 5, 6, 7, 8, 9, 10] : List ℤ).getD (2 + i) 0) ∧
    (excl_avg 2 [3, 1, 2]).1 = (nthElem [3, 1, 2])[1]? :=
  ⟨(excl_avg_positional_trim 2 [1, 2, 3, 4, 5, 6, 7, 8, 9, 10]).1 (by decide),
   (excl_avg_positional_trim 2 [3, 1, 2]).2 (by decide)⟩

/-- C6 (amended): the `nanos` specialisation of `nsd` computes each
deviation from the truncated mean, and its square, in `int64_t` — the
representation type of the sample itself, *not* a larger signed type.  The
squared deviations are exact (equal to the mathematical `(x - m)²`) exactly
as long as every difference and every square happens to fit in `int64_t`;
once a squared deviation reaches `2^63` the squaring overflows, as the
counterexample shows. -/
theorem nsd_squares_at_rep_width (v : List ℤ) (m : ℤ) (hm : avg v = some m)
    (hfit : ∀ x ∈ v, fitsI64 (x - m) ∧ fitsI64 ((x - m) * (x - m))) :
    nsd_sqs v = some (v.map fun x => (x - m) * (x - m)) := by
  have key : ∀ t : List ℤ,
      (∀ x ∈ t, fitsI64 (x - m) ∧ fitsI64 ((x - m) * (x - m))) →
      t.mapM (nsd_sq m) = some (t.map fun x => (x - m) * (x - m)) := by
    intro t
    induction t with
    | nil => intro _; rfl
    | cons a t ih =>
      intro hf
      have ha := hf a (List.mem_cons_self a t)
      have hstep : nsd_sq m a = some ((a - m) * (a - m)) := by
        unfold nsd_sq subI64 mulI64
        rw [if_pos ha.1]
        show (if fitsI64 ((a - m) * (a - m)) then
          some ((a - m) * (a - m)) else none) = _
        rw [if_pos ha.2]
      rw [List.mapM_cons, hstep,
        ih fun x hx => hf x (List.mem_cons_of_mem a hx)]
      rfl
  unfold nsd_sqs
  rw [hm]
  exact key v hfit

/-- Witness for `nsd_squares_at_rep_width`: the samples `[1, 2, 3]` have
truncated mean `2` and in-range squared deviations `[1, 0, 1]`. -/
theorem nsd_squares_at_rep_width_witness :
    nsd_sqs [1, 2, 3] =
      some (([1, 2, 3] : List ℤ).map fun x => (x - 2) * (x - 2)) :=
  nsd_squares_at_rep_width [1, 2, 3] 2 rfl (by decide)

/-- Witness for `excl_avg_frame` at concrete inputs: `N = 1` on five samples
(trim branch, vector returned untouched) and `N = 2` on three samples
(median fallback, vector a permutation of the input). -/
theorem excl_avg_frame_witness :
    (excl_avg 1 [9, 1, 5, 3, 7]).2 = [9, 1, 5, 3, 7] ∧
    (excl_avg 2 [3, 1, 2]).2.Perm [3, 1, 2] :=
  ⟨(excl_avg_frame 1 [9, 1, 5, 3, 7]).1 (by decide),
   (excl_avg_frame 2 [3, 1, 2]).2 (by decide)⟩

/-- Helper: replacing the element at an in-range position and putting the old
element in front is a permutation of putting the new element in front. -/
theorem getD_cons_set_perm (x : ℕ) :
    ∀ (xs : List ℕ) (j : ℕ), j < xs.length →
      (xs.getD j 0 :: xs.set j x).Perm (x :: xs) := by
  intro xs
  induction xs with
  | nil => intro j hj; simp at hj
  | cons y ys ih =>
    intro j hj
    cases j with
    | zero => exact List.Perm.swap x y ys
    | succ k =>
      have hk : k < ys.length := by simpa using hj
      exact ((List.Perm.swap y (ys.getD k 0) (ys.set k x)).trans
        ((ih k hk).cons y)).trans (List.Perm.swap x y ys)

/-- Helper: `std::swap` of two in-range vector elements permutes the
vector. -/
theorem listSwap_perm :
    ∀ (l : List ℕ) (a b : ℕ), a < l.length → b < l.length →
      (listSwap l a b).Perm l := by
  intro l
  induction l with
  | nil => intro a b ha _; simp at ha
  | cons y ys ih =>
    intro a b ha hb
    cases a with
    | zero =>
      cases b with
      | zero => simp [listSwap]
      | succ k =>
        have hk : k < ys.length := by simpa using hb
        show (ys.getD k 0 :: ys.set k y).Perm (y :: ys)
        exact getD_cons_set_perm y ys k hk
    | succ j =>
      have hj : j < ys.length := by simpa using ha
      cases b with
      | zero =>
        show (ys.getD j 0 :: ys.set j y).Perm (y :: ys)
        exact getD_cons_set_perm y ys j hj
      | succ k =>
        have hk : k < ys.length := by simpa using hb
        show (y :: listSwap ys j k).Perm (y :: ys)
        exact (ih j k hj hk).cons y

/-- Helper: the Fisher–Yates loop of `std::shuffle` permutes any vector it is
run over, whatever the random draws. -/
theorem shuffleAux_perm (rng : ℕ → ℕ) :
    ∀ (i : ℕ) (l : List ℕ), i < l.length → (shuffleAux rng i l).Perm l := by
  intro i
  induction i with
  | zero => intro l _; exact List.Perm.refl l
  | succ i ih =>
    intro l hl
    have hswap : (listSwap l (i + 1) (rng (i + 1) % (i + 2))).Perm l :=
      listSwap_perm l _ _ hl (lt_of_lt_of_le (Nat.mod_lt _ (Nat.succ_pos _)) hl)
    have hlen : i < (listSwap l (i + 1) (rng (i + 1) % (i + 2))).length := by
      unfold listSwap
      simp only [List.length_set]
      omega
    exact (ih _ hlen).trans hswap

/-- Helper: a natural number below `M` occurs exactly once in `range M`. -/
theorem countP_range_eq_one (M c : ℕ) (hc : c < M) :
    (List.range M).countP (fun i => decide (i = c)) = 1 := by
  induction M with
  | zero => omega
  | succ M ih =>
    rw [List.range_succ, List.countP_append]
    rcases Nat.lt_or_ge c M with h | h
    · rw [ih h]
      have : (List.countP (fun i => decide (i = c)) [M]) = 0 := by
        simp
        omega
      omega
    · have hcM : c = M := by omega
      subst hcM
      have h0 : (List.range c).countP (fun i => decide (i = c)) = 0 := by
        rw [List.countP_eq_zero]
        intro a ha
        have := List.mem_range.mp ha
        simp
        omega
      rw [h0]
      simp

/-- Helper: exactly `R` of the indices `0 .. N*R - 1` target candidate `j`
(those congruent to `j` mod `N`). -/
theorem countP_range_mod (N R j : ℕ) (hj : j < N) :
    (List.range (N * R)).countP (fun i => decide (i % N = j)) = R := by
  induction R with
  | zero => simp
  | succ R ih =>
    rw [Nat.mul_succ, List.range_add, List.countP_append, ih, List.countP_map]
    have hcongr : (List.range N).countP
        ((fun i => decide (i % N = j)) ∘ (N * R + ·)) =
        (List.range N).countP (fun i => decide (i = j)) := by
      apply List.countP_congr
      intro x hx
      have hxN : x < N := List.mem_range.mp hx
      have hmod : (N * R + x) % N = x := by
        rw [Nat.mul_comm, Nat.add_comm, Nat.add_mul_mod_self_right]
        exact Nat.mod_eq_of_lt hxN
      simp [Function.comp, hmod]
    rw [hcongr, countP_range_eq_one N j hj]

/-- Helper: for `j < N` and any `i`, loop iteration `i` targets cell
`(j, r)` — that is `i % N = j` and `i / N = r` — exactly when
`i = r * N + j`. -/
theorem mod_div_eq_iff (N j r i : ℕ) (hj : j < N) :
    (i % N = j ∧ i / N = r) ↔ i = r * N + j := by
  constructor
  · rintro ⟨hmod, hdiv⟩
    have := Nat.div_add_mod i N
    rw [hdiv, hmod, Nat.mul_comm] at this
    omega
  · rintro rfl
    have hN : 0 < N := by omega
    constructor
    · rw [Nat.add_comm, Nat.add_mul_mod_self_right]
      exact Nat.mod_eq_of_lt hj
    · rw [Nat.add_comm, Nat.add_mul_div_right _ _ hN, Nat.div_eq_of_lt hj]
      omega

/-- C9: for every `n` and every random stream, `gen_rd_seq n` returns a
permutation of `{0, 1, ..., n-1}`; consequently, for `j < N` and `r < R`
exactly one index `i` of the permuted sequence `gen_rd_seq (N*R)` satisfies
`i % N = j ∧ i / N = r` — i.e. in the permuting `bench` overloads the cell
`run_results[j][r]` is written exactly once before the reducers run. -/
theorem gen_rd_seq_spec :
    ∀ (n : ℕ) (rng : ℕ → ℕ),
      (gen_rd_seq n rng).Perm (List.range n) ∧
      ∀ N R j r : ℕ, j < N → r < R →
        (gen_rd_seq (N * R) rng).countP
          (fun i => decide (i % N = j ∧ i / N = r)) = 1 := by
  have hperm : ∀ (n : ℕ) (rng : ℕ → ℕ),
      (gen_rd_seq n rng).Perm (List.range n) := by
    intro n rng
    unfold gen_rd_seq
    cases n with
    | zero => exact List.Perm.refl _
    | succ m =>
      apply shuffleAux_perm
      rw [List.length_range]
      omega
  intro n rng
  refine ⟨hperm n rng, ?_⟩
  intro N R j r hj hr
  rw [(hperm (N * R) rng).countP_eq]
  have hcongr : (List.range (N * R)).countP
      (fun i => decide (i % N = j ∧ i / N = r)) =
      (List.range (N * R)).countP (fun i => decide (i = r * N + j)) := by
    apply List.countP_congr
    intro x _
    simp only [decide_eq_true_eq]
    exact mod_div_eq_iff N j r x hj
  rw [hcongr]
  apply countP_range_eq_one
  have h1 : r * N + j < (r + 1) * N := by
    rw [Nat.succ_mul]
    omega
  have h2 : (r + 1) * N ≤ R * N := Nat.mul_le_mul_right N hr
  rw [Nat.mul_comm N R]
  omega

/-- Witness for `gen_rd_seq_spec`: `n = 4` with the all-zero random stream,
and the cell `(j, r) = (1, 0)` for `N = R = 2`. -/
theorem gen_rd_seq_spec_witness :
    (gen_rd_seq 4 (fun _ => 0)).Perm (List.range 4) ∧
    (gen_rd_seq (2 * 2) (fun _ => 0)).countP
      (fun i => decide (i % 2 = 1 ∧ i / 2 = 0)) = 1 :=
  ⟨(gen_rd_seq_spec 4 fun _ => 0).1,
   (gen_rd_seq_spec 4 fun _ => 0).2 2 2 1 0 (by decide) (by decide)⟩

/-- Helper: the scheduling loop never changes the length of the
invocation-count vector. -/
theorem benchFold_counts_length (funcs : List (ℕ → ℤ)) :
    ∀ (seq : List ℕ) (st : List (List ℤ) × List ℕ),
      (List.foldl (benchStep funcs) st seq).2.length = st.2.length := by
  intro seq
  induction seq with
  | nil => intro st; rfl
  | cons i s ih =>
    intro st
    rw [List.foldl_cons, ih]
    show (st.2.set (i % funcs.length) _).length = _
    rw [List.length_set]

/-- Helper: across the scheduling loop, candidate `j`'s invocation count
grows by the number of processed indices `i` with `i % N = j` — iteration
`i` invokes exactly candidate `i % N`. -/
theorem benchFold_counts (funcs : List (ℕ → ℤ)) :
    ∀ (seq : List ℕ) (st : List (List ℤ) × List ℕ) (j : ℕ),
      st.2.length = funcs.length → j < funcs.length →
      (List.foldl (benchStep funcs) st seq).2.getD j 0 =
        st.2.getD j 0 + seq.countP (fun i => decide (i % funcs.length = j)) := by
  intro seq
  induction seq with
  | nil => intro st j _ _; simp
  | cons i s ih =>
    intro st j hlen hj
    rw [List.foldl_cons, List.countP_cons]
    have hlen' : (benchStep funcs st i).2.length = funcs.length := by
      show (st.2.set (i % funcs.length) _).length = _
      rw [List.length_set, hlen]
    rw [ih (benchStep funcs st i) j hlen' hj]
    have hstep2 : (benchStep funcs st i).2 =
        st.2.set (i % funcs.length) (st.2.getD (i % funcs.length) 0 + 1) := rfl
    by_cases hij : i % funcs.length = j
    · have hcnt : (benchStep funcs st i).2.getD j 0 = st.2.getD j 0 + 1 := by
        rw [hstep2, hij]
        rw [List.getD_eq_getElem?_getD, List.getElem?_set, if_pos rfl,
          if_pos (by omega : j < st.2.length)]
        simp [List.getD_eq_getElem?_getD]
      rw [hcnt]
      simp [hij]
      omega
    · have hcnt : (benchStep funcs st i).2.getD j 0 = st.2.getD j 0 := by
        rw [hstep2]
        rw [List.getD_eq_getElem?_getD, List.getElem?_set, if_neg hij,
          ← List.getD_eq_getElem?_getD]
      rw [hcnt]
      simp [hij]

/-- C1: over any permutation `seq` of the full index space `0 .. N*R-1` (and
`gen_rd_seq` supplies exactly such a permutation), `bench` performs one
candidate invocation per element of `seq` — `N*R` in total, the iteration
for permuted index `i` invoking candidate `i % N` and storing the returned
sample at round position `i / N` of that candidate's row, which is the shape
of `benchStep` itself — each of the `N` candidates is invoked exactly `R`
times (the final invocation-count vector is `replicate N R`), and afterwards
the reducer is applied to each candidate's `R`-sample row in candidate
order. -/
theorem bench_invokes_each_candidate_R_times (R : ℕ) (funcs : List (ℕ → ℤ))
    (seq : List ℕ) (d_meth : List ℤ → Option ℤ) (hR : 1 ≤ R)
    (hN : 1 ≤ funcs.length)
    (hperm : seq.Perm (List.range (funcs.length * R))) :
    seq.length = funcs.length * R ∧
    (benchRun R funcs seq).2 = List.replicate funcs.length R ∧
    bench_vec R d_meth funcs seq =
      ((benchRun R funcs seq).1).map d_meth := by
  have hN0 : funcs.length ≠ 0 := by omega
  refine ⟨by rw [hperm.length_eq, List.length_range], ?_, rfl⟩
  have hclen : (benchRun R funcs seq).2.length = funcs.length := by
    unfold benchRun
    rw [benchFold_counts_length]
    exact List.length_replicate ..
  apply List.ext_getElem
  · rw [hclen, List.length_replicate]
  · intro j h1 h2
    have hj : j < funcs.length := by rwa [hclen] at h1
    have hcount : (benchRun R funcs seq).2.getD j 0 = R := by
      unfold benchRun
      rw [benchFold_counts funcs seq
        (List.replicate funcs.length (List.replicate R 0),
         List.replicate funcs.length 0) j (List.length_replicate ..) hj]
      rw [hperm.countP_eq, countP_range_mod funcs.length R j hj]
      rw [List.getD_eq_getElem?_getD, List.getElem?_replicate, if_pos hj]
      simp
    rw [← List.getD_eq_getElem _ _ h1, hcount, List.getElem_replicate]

/-- Witness for `bench_invokes_each_candidate_R_times`: two candidates
(`N = 2`), `R = 2` rounds, the concrete permutation `[2, 0, 3, 1]` of
`0 .. 3`, and the `avg` reducer. -/
theorem bench_invokes_each_candidate_R_times_witness :
    (([2, 0, 3, 1] : List ℕ).length =
      [fun _ : ℕ => (0 : ℤ), fun _ : ℕ => 1].length * 2) ∧
    (benchRun 2 [fun _ : ℕ => (0 : ℤ), fun _ : ℕ => 1] [2, 0, 3, 1]).2 =
      List.replicate [fun _ : ℕ => (0 : ℤ), fun _ : ℕ => 1].length 2 ∧
    bench_vec 2 avg [fun _ : ℕ => (0 : ℤ), fun _ : ℕ => 1] [2, 0, 3, 1] =
      ((benchRun 2 [fun _ : ℕ => (0 : ℤ), fun _ : ℕ => 1] [2, 0, 3, 1]).1).map avg :=
  bench_invokes_each_candidate_R_times 2 _ _ avg (by decide) (by decide)
    (by decide)

/-- Helper: with the single constant candidate `fun _ => c` the scheduling
loop runs at `N = 1` (`i % 1 = 0`, `i / 1 = i`), so it keeps a single sample
row and writes `c` at every position it visits. -/
theorem benchFold_const (c : ℤ) :
    ∀ (seq : List ℕ) (row : List ℤ) (cnts : List ℕ),
      ∃ row' cnts',
        List.foldl (benchStep [fun _ => c]) ([row], cnts) seq =
          ([row'], cnts') ∧
        ∀ r : ℕ, row'[r]? =
          if r ∈ seq ∧ r < row.length then some c else row[r]? := by
  intro seq
  induction seq with
  | nil =>
    intro row cnts
    exact ⟨row, cnts, rfl, by simp⟩
  | cons i s ih =>
    intro row cnts
    have hstep : benchStep [fun _ => c] ([row], cnts) i =
        ([row.set i c], cnts.set 0 (cnts.getD 0 0 + 1)) := by
      simp [benchStep, Nat.mod_one, Nat.div_one]
    rw [List.foldl_cons, hstep]
    obtain ⟨row', cnts', heq, hget⟩ :=
      ih (row.set i c) (cnts.set 0 (cnts.getD 0 0 + 1))
    refine ⟨row', cnts', heq, ?_⟩
    intro r
    rw [hget r, List.length_set, List.getElem?_set]
    simp only [List.mem_cons]
    by_cases hB : r < row.length
    · by_cases hA : r ∈ s
      · simp [hA, hB]
      · by_cases hC : i = r
        · subst hC
          simp [hA, hB]
        · have hC' : ¬ (r = i) := fun h => hC h.symm
          simp [hA, hB, hC, hC']
    · have hnone : row[r]? = none :=
        List.getElem?_eq_none (Nat.le_of_not_lt hB)
      by_cases hC : i = r
      · subst hC
        simp [hB, hnone]
      · simp [hB, hC, hnone]

/-- C7: the three calling shapes of `bench` funnel into the same core
computation.  The variadic (fixed-list) overload and the runtime-list
overload are the very same scheduling-and-reduction algorithm, so they agree
on every input; and for every deterministic candidate (one returning the
same value `c` on every invocation), every reducer and every round count
`R ≥ 1`, the single-candidate overload — which runs the candidate `R` times
sequentially with no permutation — returns exactly the sole element of the
result the permuting core algorithm produces at `N = 1`, whatever
permutation of `0 .. R-1` the core was given. -/
theorem bench_shapes_funnel (R : ℕ) (c : ℤ) (d : List ℤ → Option ℤ)
    (seq : List ℕ) (rounds : ℕ) (dm : List ℤ → Option ℤ)
    (funcs : List (ℕ → ℤ)) (s : List ℕ) (hR : 1 ≤ R)
    (hperm : seq.Perm (List.range R)) :
    bench_vec R d [fun _ => c] seq = [bench_one R d fun _ => c] ∧
    bench_arr rounds dm funcs s = bench_vec rounds dm funcs s := by
  refine ⟨?_, rfl⟩
  obtain ⟨row', cnts', heq, hget⟩ :=
    benchFold_const c seq (List.replicate R 0) [0]
  have hrow : row' = List.replicate R c := by
    apply List.ext_getElem?
    intro r
    rw [hget r, List.length_replicate]
    by_cases hrR : r < R
    · have hmem : r ∈ seq := hperm.mem_iff.2 (List.mem_range.mpr hrR)
      simp [hmem, hrR, List.getElem?_replicate]
    · have hmem : r ∉ seq := fun hm =>
        hrR (List.mem_range.mp (hperm.mem_iff.1 hm))
      simp [hmem, hrR, List.getElem?_replicate]
  show ((List.foldl (benchStep [fun _ => c])
      ([List.replicate R 0], [0]) seq).1).map d = _
  rw [heq]
  show [d row'] = [d ((List.range R).map fun _ => c)]
  rw [hrow, List.map_const', List.length_range]

/-- Witness for `bench_shapes_funnel`: `R = 2` rounds of the constant
candidate `5` under the permutation `[1, 0]` with the `avg` reducer, and the
fixed-list/runtime-list agreement at three rounds of a constant candidate
`7` under the permutation `[2, 0, 1]`. -/
theorem bench_shapes_funnel_witness :
    bench_vec 2 avg [fun _ => (5 : ℤ)] [1, 0] =
      [bench_one 2 avg fun _ => (5 : ℤ)] ∧
    bench_arr 3 avg [fun _ => (7 : ℤ)] [2, 0, 1] =
      bench_vec 3 avg [fun _ => (7 : ℤ)] [2, 0, 1] :=
  bench_shapes_funnel 2 5 avg [1, 0] 3 avg [fun _ => (7 : ℤ)] [2, 0, 1]
    (by decide) (by decide)

end BM
